import Mathlib

/-
Verification of the PhotonDB space-reclamation core and Bw-tree index-page
operations, shallowly embedded in Lean.

Sources embedded:
- photondb/src/page_store/stats.rs        (stats snapshots, wrapping arithmetic)
- photondb/src/page_store/strategy/mod.rs (MinDeclineRate reclaim strategy)
- src/engine/src/tree/page/index_page.rs  (index-page view and iterators)

Conventions of the embedding:
- u64 / usize / u32 counters are Nat; wrapping arithmetic is explicit mod 2^64.
- f64 arithmetic is modelled exactly over the rationals; the constant f64::MIN
  is the exact rational value of that IEEE-754 double.  Rounding of doubles is
  not modelled.  Rationals have no NaN, so the NaN assertions of the source
  hold vacuously here.
- Fallible operations (panicking unsigned subtraction) get a second, checked
  embedding returning Option.
-/

namespace PhotonDB

/-! ### Stats snapshots (photondb/src/page_store/stats.rs) -/

/-- Modulus of 64-bit machine integers. -/
def w64 : ℕ := 2 ^ 64

/-- u64::wrapping_sub on Nat representatives. -/
def wrapping_sub (a b : ℕ) : ℕ := (a % w64 + (w64 - b % w64)) % w64

/-- u64::wrapping_add on Nat representatives. -/
def wrapping_add (a b : ℕ) : ℕ := (a + b) % w64

/-- CacheStats: five u64 counters. -/
structure CacheStats where
  lookup_hit : ℕ
  lookup_miss : ℕ
  insert : ℕ
  active_evict : ℕ
  passive_evict : ℕ
deriving DecidableEq, Repr

/-- The fields of a CacheStats snapshot are u64 values. -/
def CacheStats.InRange (s : CacheStats) : Prop :=
  s.lookup_hit < w64 ∧ s.lookup_miss < w64 ∧ s.insert < w64 ∧
    s.active_evict < w64 ∧ s.passive_evict < w64

instance (s : CacheStats) : Decidable s.InRange := by
  unfold CacheStats.InRange
  infer_instance

/-- CacheStats::sub — pointwise wrapping subtraction. -/
def CacheStats.sub (s o : CacheStats) : CacheStats where
  lookup_hit := wrapping_sub s.lookup_hit o.lookup_hit
  lookup_miss := wrapping_sub s.lookup_miss o.lookup_miss
  insert := wrapping_sub s.insert o.insert
  active_evict := wrapping_sub s.active_evict o.active_evict
  passive_evict := wrapping_sub s.passive_evict o.passive_evict

/-- CacheStats::add — pointwise wrapping addition. -/
def CacheStats.add (s o : CacheStats) : CacheStats where
  lookup_hit := wrapping_add s.lookup_hit o.lookup_hit
  lookup_miss := wrapping_add s.lookup_miss o.lookup_miss
  insert := wrapping_add s.insert o.insert
  active_evict := wrapping_add s.active_evict o.active_evict
  passive_evict := wrapping_add s.passive_evict o.passive_evict

/-- WritebufStats: two u64 counters. -/
structure WritebufStats where
  read_in_buf : ℕ
  read_in_file : ℕ
deriving DecidableEq, Repr

/-- WritebufStats::sub — pointwise wrapping subtraction. -/
def WritebufStats.sub (s o : WritebufStats) : WritebufStats where
  read_in_buf := wrapping_sub s.read_in_buf o.read_in_buf
  read_in_file := wrapping_sub s.read_in_file o.read_in_file

/-- JobStats: three u64 counters. -/
structure JobStats where
  flush_write_bytes : ℕ
  rewrite_bytes : ℕ
  compact_write_bytes : ℕ
deriving DecidableEq, Repr

/-- JobStats::sub, exactly as in the source: the first two fields use
wrapping_sub, but the compact_write_bytes field uses wrapping_add
(stats.rs line 161). -/
def JobStats.sub (s o : JobStats) : JobStats where
  flush_write_bytes := wrapping_sub s.flush_write_bytes o.flush_write_bytes
  rewrite_bytes := wrapping_sub s.rewrite_bytes o.rewrite_bytes
  compact_write_bytes := wrapping_add s.compact_write_bytes o.compact_write_bytes

/-- StoreStats: aggregate of the snapshot groups. -/
structure StoreStats where
  page_cache : CacheStats
  file_reader_cache : CacheStats
  writebuf : WritebufStats
  jobs : JobStats
deriving DecidableEq, Repr

/-- StoreStats::sub — delegates to the per-group sub. -/
def StoreStats.sub (s o : StoreStats) : StoreStats where
  page_cache := s.page_cache.sub o.page_cache
  file_reader_cache := s.file_reader_cache.sub o.file_reader_cache
  writebuf := s.writebuf.sub o.writebuf
  jobs := s.jobs.sub o.jobs

/-! ### Reclaim strategy (photondb/src/page_store/strategy/mod.rs) -/

/-- The exact rational value of the IEEE-754 double f64::MIN. -/
def f64MIN : ℚ := -(2 ^ 1024 - 2 ^ 971)

/-- FileSummary: the per-segment metrics consumed by the strategy
(usize fields as Nat, f64 fields as exact rationals). -/
structure FileSummary where
  file_size : ℕ
  num_active_pages : ℕ
  effective_size : ℕ
  effective_rate : ℚ
  empty_pages_rate : ℚ
  up2 : ℕ
deriving DecidableEq, Repr

/-- decline_rate, translated from strategy/mod.rs lines 168-190.  The usize
subtraction file_size - effective_size is Nat truncated subtraction here (the
non-panicking case; see decline_rate_checked for the underflow behaviour). -/
def decline_rate (summary : FileSummary) (now : ℕ) : ℚ :=
  if summary.num_active_pages = 0 then 0
  else
    let free_size := summary.file_size - summary.effective_size
    if free_size = 0 ∨ summary.up2 = now then f64MIN
    else
      -(((summary.effective_size : ℚ) / (free_size : ℚ)) ^ 2) /
        ((summary.num_active_pages : ℚ) * ((now : ℚ) - (summary.up2 : ℚ)))

/-- decline_rate with the two fallible steps made explicit: none models the
panic of the unguarded usize subtraction when effective_size exceeds
file_size, and a division whose denominator is zero. -/
def decline_rate_checked (summary : FileSummary) (now : ℕ) : Option ℚ :=
  if summary.num_active_pages = 0 then some 0
  else if summary.file_size < summary.effective_size then none
  else
    let free_size := summary.file_size - summary.effective_size
    if free_size = 0 ∨ summary.up2 = now then some f64MIN
    else if (summary.num_active_pages : ℚ) * ((now : ℚ) - (summary.up2 : ℚ)) = 0 then none
    else
      some (-(((summary.effective_size : ℚ) / (free_size : ℚ)) ^ 2) /
        ((summary.num_active_pages : ℚ) * ((now : ℚ) - (summary.up2 : ℚ))))

/-- write_amplification, from strategy/mod.rs lines 202-207. -/
def write_amplification (empty_rate : ℚ) : ℚ :=
  1 / empty_rate * (1 - empty_rate)

/-- PickedFile: either a page file or a map file, by id. -/
inductive PickedFile where
  | PageFile (id : ℕ)
  | MapFile (id : ℕ)
deriving DecidableEq, Repr

/-- The derived Ord of PickedFile compares the variant tag first
(PageFile before MapFile), then the id. -/
def PickedFile.toPair : PickedFile → ℕ × ℕ
  | .PageFile i => (0, i)
  | .MapFile i => (1, i)

theorem PickedFile.toPair_inj {a b : PickedFile} (h : a.toPair = b.toPair) : a = b := by
  cases a <;> cases b <;> simp [PickedFile.toPair] at h <;> simp [h]

/-- FileScore: the strategy record per collected segment. -/
structure FileScore where
  score : ℚ
  effective_rate : ℚ
  write_amplify : ℚ
  active_size : ℕ
  file_id : PickedFile
deriving DecidableEq, Repr

/-- Field tuple of a FileScore under the lexicographic order, in declaration
order, with the file id mapped to its (variant tag, id) pair. -/
def FileScore.lexKey (f : FileScore) : ℚ ×ₗ (ℚ ×ₗ (ℚ ×ₗ (ℕ ×ₗ (ℕ ×ₗ ℕ)))) :=
  toLex (f.score, toLex (f.effective_rate, toLex (f.write_amplify,
    toLex (f.active_size, toLex f.file_id.toPair))))

/-- The comparator used by apply: the derived lexicographic PartialOrd of
FileScore, whose fallback to file_id total order applies only when a float
field compares unordered.  On rational fields partial_cmp never returns
None, so the comparator is exactly this lexicographic order. -/
def fsLe (a b : FileScore) : Prop :=
  a.lexKey ≤ b.lexKey

instance : DecidableRel fsLe := fun a b =>
  inferInstanceAs (Decidable (a.lexKey ≤ b.lexKey))

/-- Unfolded form of the comparator: field-by-field lexicographic comparison,
one field at a time, falling through on equality. -/
theorem fsLe_iff (a b : FileScore) :
    fsLe a b ↔
      a.score < b.score ∨ (a.score = b.score ∧
        (a.effective_rate < b.effective_rate ∨ (a.effective_rate = b.effective_rate ∧
          (a.write_amplify < b.write_amplify ∨ (a.write_amplify = b.write_amplify ∧
            (a.active_size < b.active_size ∨ (a.active_size = b.active_size ∧
              (a.file_id.toPair.1 < b.file_id.toPair.1 ∨
                (a.file_id.toPair.1 = b.file_id.toPair.1 ∧
                  a.file_id.toPair.2 ≤ b.file_id.toPair.2))))))))) := by
  unfold fsLe FileScore.lexKey
  simp [Prod.Lex.le_iff, Prod.Lex.lt_iff]

theorem FileScore.lexKey_inj {a b : FileScore} (h : a.lexKey = b.lexKey) : a = b := by
  cases a
  cases b
  simp only [FileScore.lexKey, toLex_inj, Prod.mk.injEq] at h
  obtain ⟨h1, h2, h3, h4, h5⟩ := h
  simp [h1, h2, h3, h4, PickedFile.toPair_inj h5]

instance : IsRefl FileScore fsLe :=
  ⟨by
    intro a
    unfold fsLe
    exact le_refl _⟩

instance : IsTrans FileScore fsLe :=
  ⟨by
    intro a b c h1 h2
    unfold fsLe at h1 h2 ⊢
    exact le_trans h1 h2⟩

instance : IsTotal FileScore fsLe :=
  ⟨by
    intro a b
    unfold fsLe
    exact le_total _ _⟩

instance : IsAntisymm FileScore fsLe :=
  ⟨by
    intro a b h1 h2
    unfold fsLe at h1 h2
    exact FileScore.lexKey_inj (le_antisymm h1 h2)⟩

/-- MinDeclineRateStrategy state: the round epoch, the accounting total,
the sorted flag and the collected scores. -/
structure MinDeclineRateStrategy where
  now : ℕ
  used : ℕ
  sorted : Bool
  scores : List FileScore

/-- MinDeclineRateStrategy::new. -/
def MinDeclineRateStrategy.new (now : ℕ) : MinDeclineRateStrategy :=
  { now := now, used := 0, sorted := false, scores := [] }

/-- MinDeclineRateStrategy::collect (strategy/mod.rs lines 66-81).  The
source asserts the score and effective rate are not NaN and the rate is
finite; rationals satisfy this vacuously. -/
def MinDeclineRateStrategy.collect (st : MinDeclineRateStrategy)
    (file_id : PickedFile) (summary : FileSummary) : MinDeclineRateStrategy :=
  { st with
    used := st.used + summary.file_size
    scores := st.scores ++
      [{ score := decline_rate summary st.now
         effective_rate := summary.effective_rate
         write_amplify := write_amplification summary.empty_pages_rate
         active_size := summary.effective_size
         file_id := file_id }] }

/-- MinDeclineRateStrategy::apply (strategy/mod.rs lines 101-115): sort the
scores ascending on first call, refuse with fewer than two candidates,
otherwise pop and return the maximal score.  sort_unstable_by with this
total antisymmetric comparator has a unique result, so any correct sort
models it; insertion sort is used here. -/
def MinDeclineRateStrategy.apply (st : MinDeclineRateStrategy) :
    Option (PickedFile × ℕ) × MinDeclineRateStrategy :=
  let ss := if st.sorted then st.scores else List.insertionSort fsLe st.scores
  let st2 : MinDeclineRateStrategy := { st with sorted := true, scores := ss }
  if ss.length < 2 then (none, st2)
  else
    match ss.getLast? with
    | none => (none, st2)
    | some f => (some (f.file_id, f.active_size), { st2 with scores := ss.dropLast })

/-- The FileScore that collect pushes for one input pair. -/
def toScore (now : ℕ) (x : PickedFile × FileSummary) : FileScore :=
  { score := decline_rate x.2 now
    effective_rate := x.2.effective_rate
    write_amplify := write_amplification x.2.empty_pages_rate
    active_size := x.2.effective_size
    file_id := x.1 }

/-- Collect a whole round of summaries into a fresh strategy instance. -/
def collectAll (now : ℕ) (l : List (PickedFile × FileSummary)) :
    MinDeclineRateStrategy :=
  l.foldl (fun st x => st.collect x.1 x.2) (MinDeclineRateStrategy.new now)

/-- Result of the first apply after collecting a round. -/
def applyCollected (now : ℕ) (l : List (PickedFile × FileSummary)) :
    Option (PickedFile × ℕ) :=
  (collectAll now l).apply.1

/-! ### Index pages (src/engine/src/tree/page/index_page.rs)

The index-page operations are translated from the source.  They sit on the
sorted-page framing, whose implementation is not among the provided sources;
that layer is modelled from the spec below. -/

/-- Keys are variable-length byte strings compared lexicographically;
bytes are modelled as Nat values. -/
abbrev Key := List ℕ

/-- Index: opaque fixed-size child descriptor (page id plus epoch). -/
structure Index where
  id : ℕ
  epoch : ℕ
deriving DecidableEq, Repr

/-- Modelled from the spec: the sorted-page framing (SortedPageRef) is not
among the provided sources.  Per the spec it exposes an immutable region of
entries sorted ascending by key; the binary layout is abstracted to the
entry list it decodes to. -/
structure SortedPage where
  entries : List (Key × Index)
deriving DecidableEq, Repr

/-- Modelled from the spec: len returns the entry count. -/
def SortedPage.len (p : SortedPage) : ℕ :=
  p.entries.length

/-- Modelled from the spec: get i returns the i-th entry positionally. -/
def SortedPage.get (p : SortedPage) (i : ℕ) : Option (Key × Index) :=
  p.entries[i]?

/-- Modelled from the spec: search target performs binary search by key and
returns either Ok i (exact hit) or Err i, where i is the insertion index,
i.e. the count of entries strictly less than target. -/
def SortedPage.search (p : SortedPage) (target : Key) : ℕ ⊕ ℕ :=
  let i := p.entries.countP (fun e => decide (e.1 < target))
  match p.entries[i]? with
  | some e => if e.1 = target then Sum.inl i else Sum.inr i
  | none => Sum.inr i

/-- Modelled from the spec: seek_back returns the entry at i on an exact
hit and the entry at the insertion index minus one on a miss — the
greatest entry with key at most target. -/
def SortedPage.seek_back (p : SortedPage) (target : Key) : Option (Key × Index) :=
  match p.search target with
  | Sum.inl i => p.get i
  | Sum.inr i => if i = 0 then none else p.get (i - 1)

/-- The invariant of a built sorted page: entries strictly ascending by key. -/
def SortedPage.WellFormed (p : SortedPage) : Prop :=
  p.entries.Pairwise (fun a b => a.1 < b.1)

instance (p : SortedPage) : Decidable p.WellFormed := by
  unfold SortedPage.WellFormed
  infer_instance

/-- IndexPageRef: a typed view over a sorted page (index_page.rs line 27). -/
structure IndexPageRef where
  base : SortedPage
deriving DecidableEq, Repr

/-- IndexPageRef::find (index_page.rs lines 37-39). -/
def IndexPageRef.find (p : IndexPageRef) (target : Key) : Option (Key × Index) :=
  p.base.seek_back target

/-- IndexPageRef::find_range (index_page.rs lines 42-50).  checked_add never
overflows on Nat; checked_sub of one from zero yields none. -/
def IndexPageRef.find_range (p : IndexPageRef) (target : Key) :
    Option (Key × Index) × Option (Key × Index) :=
  match p.base.search target with
  | Sum.inl i => (p.base.get i, p.base.get (i + 1))
  | Sum.inr i => (if i = 0 then none else p.base.get (i - 1), p.base.get i)

/-- IndexPageIter: a forward iterator over the page, as a cursor position
into the entry list (index_page.rs lines 88-140). -/
structure IndexPageIter where
  page : IndexPageRef
  pos : ℕ
deriving DecidableEq, Repr

/-- IndexPageIter::new. -/
def IndexPageIter.new (p : IndexPageRef) : IndexPageIter :=
  { page := p, pos := 0 }

/-- ForwardIter::next on the page iterator: yield the current entry and
advance. -/
def IndexPageIter.next (it : IndexPageIter) : Option (Key × Index) × IndexPageIter :=
  match it.page.base.get it.pos with
  | some e => (some e, { it with pos := it.pos + 1 })
  | none => (none, it)

/-- ForwardIter::skip on the page iterator. -/
def IndexPageIter.skip (it : IndexPageIter) (n : ℕ) : IndexPageIter :=
  { it with pos := it.pos + n }

/-- RewindableIter::rewind on the page iterator. -/
def IndexPageIter.rewind (it : IndexPageIter) : IndexPageIter :=
  { it with pos := 0 }

/-- The sequence a page iterator still yields if consumed to the end. -/
def IndexPageIter.remaining (it : IndexPageIter) : List (Key × Index) :=
  it.page.base.entries.drop it.pos

/-- IndexPageSplitIter (index_page.rs lines 142-180): the base iterator plus
the retained skip count. -/
structure IndexPageSplitIter where
  base : IndexPageIter
  skip : ℕ
deriving DecidableEq, Repr

/-- IndexPageSplitIter::new: skip the first half immediately. -/
def IndexPageSplitIter.new (base : IndexPageIter) (skip : ℕ) : IndexPageSplitIter :=
  { base := base.skip skip, skip := skip }

/-- ForwardIter::next on the split iterator delegates to the base. -/
def IndexPageSplitIter.next (it : IndexPageSplitIter) :
    Option (Key × Index) × IndexPageSplitIter :=
  ((it.base.next).1, { it with base := (it.base.next).2 })

/-- RewindableIter::rewind on the split iterator (index_page.rs lines
175-180): rewind the base, then re-skip. -/
def IndexPageSplitIter.rewind (it : IndexPageSplitIter) : IndexPageSplitIter :=
  { it with base := (it.base.rewind).skip it.skip }

/-- The sequence a split iterator still yields if consumed to the end. -/
def IndexPageSplitIter.remaining (it : IndexPageSplitIter) : List (Key × Index) :=
  it.base.remaining

/-- IndexPageRef::split (index_page.rs lines 56-68). -/
def IndexPageRef.split (p : IndexPageRef) : Option (Key × IndexPageSplitIter) :=
  match p.base.get (p.base.len / 2) with
  | some se =>
      let rank :=
        match p.base.search se.1 with
        | Sum.inl i => i
        | Sum.inr i => i
      if rank > 0 then
        some (se.1, IndexPageSplitIter.new (IndexPageIter.new p) rank)
      else none
  | none => none

/-- The range-duality property claimed for find_range: the left side covers
the target and the right side (when present) strictly exceeds it, or the
left side is empty and the right side strictly exceeds the target. -/
def RangeDuality (k : Key) (res : Option (Key × Index) × Option (Key × Index)) : Prop :=
  (∃ l, res.1 = some l ∧ l.1 ≤ k ∧ (res.2 = none ∨ ∃ r, res.2 = some r ∧ k < r.1)) ∨
  (res.1 = none ∧ ∃ r, res.2 = some r ∧ k < r.1)

/-! ### Theorems: wrapping counter arithmetic -/

theorem wrapping_sub_add_cancel {a b : ℕ} (ha : a < w64) (hb : b < w64) :
    wrapping_add (wrapping_sub a b) b = a := by
  unfold wrapping_add wrapping_sub w64 at *
  omega

/-- Claim C9: CacheStats interval arithmetic round-trips — for snapshots a
and b (all five fields being u64 values), a.sub(b).add(b) equals a
pointwise, both operations working modulo two to the sixty-fourth. -/
theorem cacheStats_sub_add_cancel (a b : CacheStats) (ha : a.InRange) (hb : b.InRange) :
    (a.sub b).add b = a := by
  obtain ⟨a1, a2, a3, a4, a5⟩ := a
  obtain ⟨b1, b2, b3, b4, b5⟩ := b
  obtain ⟨ha1, ha2, ha3, ha4, ha5⟩ := ha
  obtain ⟨hb1, hb2, hb3, hb4, hb5⟩ := hb
  simp only [CacheStats.sub, CacheStats.add, CacheStats.mk.injEq]
  exact ⟨wrapping_sub_add_cancel ha1 hb1, wrapping_sub_add_cancel ha2 hb2,
    wrapping_sub_add_cancel ha3 hb3, wrapping_sub_add_cancel ha4 hb4,
    wrapping_sub_add_cancel ha5 hb5⟩

theorem cacheStats_sub_add_cancel_witness :
    CacheStats.InRange ⟨5, 4, 3, 2, 1⟩ ∧ CacheStats.InRange ⟨1, 2, 3, 4, 5⟩ ∧
      (CacheStats.sub ⟨5, 4, 3, 2, 1⟩ ⟨1, 2, 3, 4, 5⟩).add ⟨1, 2, 3, 4, 5⟩ = ⟨5, 4, 3, 2, 1⟩ :=
  ⟨by decide, by decide, cacheStats_sub_add_cancel _ _ (by decide) (by decide)⟩

/-- Claim C1: the claim states every field of JobStats::sub is wrapping
subtraction.  The code instead computes compact_write_bytes with wrapping
addition (stats.rs line 161): at a = (0,0,0), b = (0,0,1) the code yields
compact_write_bytes 1, while wrapping subtraction yields 2^64 - 1. -/
theorem jobStats_sub_compact_uses_add :
    JobStats.sub ⟨0, 0, 0⟩ ⟨0, 0, 1⟩ =
        ⟨wrapping_sub 0 0, wrapping_sub 0 0, wrapping_add 0 1⟩ ∧
      (JobStats.sub ⟨0, 0, 0⟩ ⟨0, 0, 1⟩).compact_write_bytes = 1 ∧
      wrapping_sub 0 1 = 2 ^ 64 - 1 ∧
      (JobStats.sub ⟨0, 0, 0⟩ ⟨0, 0, 1⟩).compact_write_bytes ≠ wrapping_sub 0 1 :=
  ⟨rfl, by decide, by decide, by decide⟩

/-! ### Theorems: the decline-rate score -/

theorem decline_rate_formula (f a e u n : ℕ) (er epr : ℚ) (he : e ≤ f) :
    decline_rate ⟨f, a, e, er, epr, u⟩ n =
      if a = 0 then 0
      else if f = e ∨ u = n then f64MIN
      else -(((e : ℚ) / ((f : ℚ) - (e : ℚ))) ^ 2) /
        ((a : ℚ) * ((n : ℚ) - (u : ℚ))) := by
  unfold decline_rate
  simp only [show (f - e = 0) ↔ f = e from by omega, Nat.cast_sub he]

/-- Claim C3: for a summary with active pages a, file size f, effective
size e not exceeding f, update epoch u and round epoch n, the score is 0
when a = 0; the f64::MIN floor when a > 0 and f = e or u = n; and otherwise
exactly the negated squared ratio of live to free bytes over a times the
epoch distance. -/
theorem decline_rate_eq_spec (f a e u n : ℕ) (er epr : ℚ) (he : e ≤ f) :
    decline_rate ⟨f, a, e, er, epr, u⟩ n =
      if a = 0 then 0
      else if f = e ∨ u = n then f64MIN
      else -(((e : ℚ) / ((f : ℚ) - (e : ℚ))) ^ 2) /
        ((a : ℚ) * ((n : ℚ) - (u : ℚ))) :=
  decline_rate_formula f a e u n er epr he

theorem decline_rate_eq_spec_witness :
    (1 : ℕ) ≤ 3 ∧
      decline_rate ⟨3, 1, 1, 0, 0, 0⟩ 2 =
        (if (1 : ℕ) = 0 then 0
         else if (3 : ℕ) = 1 ∨ (0 : ℕ) = 2 then f64MIN
         else -((((1 : ℕ) : ℚ) / (((3 : ℕ) : ℚ) - ((1 : ℕ) : ℚ))) ^ 2) /
           (((1 : ℕ) : ℚ) * (((2 : ℕ) : ℚ) - ((0 : ℕ) : ℚ)))) :=
  ⟨by decide, decline_rate_eq_spec 3 1 1 0 2 0 0 (by decide)⟩

/-- Claim C10: decline_rate subtracts effective_size from file_size
unguarded when there are active pages, so it is total only under the
precondition effective_size at most file_size; under that precondition the
checked evaluation succeeds and agrees with the total model, and with the
precondition violated and active pages present it aborts. -/
theorem decline_rate_checked_spec (s : FileSummary) (now : ℕ) :
    (s.effective_size ≤ s.file_size →
      decline_rate_checked s now = some (decline_rate s now)) ∧
    (0 < s.num_active_pages → s.file_size < s.effective_size →
      decline_rate_checked s now = none) := by
  constructor
  · intro he
    unfold decline_rate_checked decline_rate
    by_cases ha : s.num_active_pages = 0
    · simp [ha]
    · rw [if_neg ha, if_neg ha, if_neg (show ¬s.file_size < s.effective_size from by omega)]
      by_cases hdeg : s.file_size - s.effective_size = 0 ∨ s.up2 = now
      · simp only [if_pos hdeg]
      · have hu : s.up2 ≠ now := fun h => hdeg (Or.inr h)
        have hden : ¬((s.num_active_pages : ℚ) * ((now : ℚ) - (s.up2 : ℚ)) = 0) := by
          refine mul_ne_zero ?_ ?_
          · exact_mod_cast ha
          · rw [sub_ne_zero]
            exact fun h => hu (by exact_mod_cast h.symm)
        simp only [if_neg hdeg, if_neg hden]
  · intro ha hlt
    unfold decline_rate_checked
    rw [if_neg (show ¬s.num_active_pages = 0 from by omega), if_pos hlt]

/-- Claim C8: for fixed active-page count a > 0, epochs u < n and file size
f, the score is strictly decreasing in the effective size on 0 < e < f. -/
theorem decline_rate_strict_anti (a u n f e1 e2 : ℕ) (er1 epr1 er2 epr2 : ℚ)
    (ha : 0 < a) (hun : u < n) (he1 : 0 < e1) (h12 : e1 < e2) (h2f : e2 < f) :
    decline_rate ⟨f, a, e2, er2, epr2, u⟩ n < decline_rate ⟨f, a, e1, er1, epr1, u⟩ n := by
  rw [decline_rate_formula f a e1 u n er1 epr1 (by omega),
    decline_rate_formula f a e2 u n er2 epr2 (by omega)]
  rw [if_neg (show ¬a = 0 from by omega), if_neg (show ¬a = 0 from by omega),
    if_neg (show ¬(f = e1 ∨ u = n) from by omega),
    if_neg (show ¬(f = e2 ∨ u = n) from by omega)]
  have hq1 : (e1 : ℚ) < (e2 : ℚ) := by exact_mod_cast h12
  have hqf : (e2 : ℚ) < (f : ℚ) := by exact_mod_cast h2f
  have hf1 : (0 : ℚ) < (f : ℚ) - (e1 : ℚ) := by linarith
  have hf2 : (0 : ℚ) < (f : ℚ) - (e2 : ℚ) := by linarith
  have hqe1 : (0 : ℚ) ≤ (e1 : ℚ) := by positivity
  have hD : (0 : ℚ) < (a : ℚ) * ((n : ℚ) - (u : ℚ)) := by
    have h1 : (0 : ℚ) < (a : ℚ) := by exact_mod_cast ha
    have h2 : (u : ℚ) < (n : ℚ) := by exact_mod_cast hun
    have : (0 : ℚ) < (n : ℚ) - (u : ℚ) := by linarith
    positivity
  have hx12 : (e1 : ℚ) / ((f : ℚ) - (e1 : ℚ)) < (e2 : ℚ) / ((f : ℚ) - (e2 : ℚ)) := by
    rw [div_lt_div_iff₀ hf1 hf2]
    nlinarith
  have hsq : ((e1 : ℚ) / ((f : ℚ) - (e1 : ℚ))) ^ 2 <
      ((e2 : ℚ) / ((f : ℚ) - (e2 : ℚ))) ^ 2 :=
    pow_lt_pow_left₀ hx12 (div_nonneg hqe1 (le_of_lt hf1)) (by norm_num)
  rw [div_lt_div_iff₀ hD hD]
  nlinarith

theorem decline_rate_strict_anti_witness :
    decline_rate ⟨3, 1, 2, 0, 0, 0⟩ 1 < decline_rate ⟨3, 1, 1, 0, 0, 0⟩ 1 :=
  decline_rate_strict_anti 1 0 1 3 1 2 0 0 0 0 (by decide) (by decide) (by decide)
    (by decide) (by decide)

theorem decline_rate_checked_spec_witness :
    decline_rate_checked ⟨4096, 100, 3000, 0, 0, 5⟩ 10 =
        some (decline_rate ⟨4096, 100, 3000, 0, 0, 5⟩ 10) ∧
      decline_rate_checked ⟨100, 1, 200, 0, 0, 5⟩ 10 = none :=
  ⟨(decline_rate_checked_spec ⟨4096, 100, 3000, 0, 0, 5⟩ 10).1 (by decide),
   (decline_rate_checked_spec ⟨100, 1, 200, 0, 0, 5⟩ 10).2 (by decide) (by decide)⟩

/-! ### Theorems: the apply protocol of MinDeclineRateStrategy -/

theorem fsLe_refl (a : FileScore) : fsLe a a := by
  unfold fsLe
  exact le_refl _

theorem foldl_collect_state (l : List (PickedFile × FileSummary))
    (st : MinDeclineRateStrategy) :
    (l.foldl (fun s x => s.collect x.1 x.2) st).now = st.now ∧
    (l.foldl (fun s x => s.collect x.1 x.2) st).sorted = st.sorted ∧
    (l.foldl (fun s x => s.collect x.1 x.2) st).scores =
      st.scores ++ l.map (toScore st.now) := by
  induction l generalizing st with
  | nil => simp
  | cons x t ih =>
    simp only [List.foldl_cons, List.map_cons]
    obtain ⟨h1, h2, h3⟩ := ih (st.collect x.1 x.2)
    refine ⟨h1.trans rfl, h2.trans rfl, ?_⟩
    rw [h3, show (st.collect x.1 x.2).now = st.now from rfl,
      show (st.collect x.1 x.2).scores = st.scores ++ [toScore st.now x] from rfl,
      List.append_assoc, List.singleton_append]

theorem applyCollected_eq (now : ℕ) (l : List (PickedFile × FileSummary)) :
    applyCollected now l =
      (if (List.insertionSort fsLe (l.map (toScore now))).length < 2 then none
       else (List.insertionSort fsLe (l.map (toScore now))).getLast?.map
         (fun f => (f.file_id, f.active_size))) := by
  unfold applyCollected collectAll MinDeclineRateStrategy.apply
  obtain ⟨h1, h2, h3⟩ := foldl_collect_state l (MinDeclineRateStrategy.new now)
  rw [show (MinDeclineRateStrategy.new now).sorted = false from rfl] at h2
  rw [show (MinDeclineRateStrategy.new now).scores = [] from rfl,
    List.nil_append] at h3
  rw [show (MinDeclineRateStrategy.new now).now = now from rfl] at h3
  simp only [h2, h3, Bool.false_eq_true, if_false]
  cases hg : (List.insertionSort fsLe (l.map (toScore now))).getLast? with
  | none =>
    simp only [hg, Option.map_none']
    split <;> rfl
  | some f =>
    simp only [hg, Option.map_some']
    split <;> rfl

theorem exists_getLast?_of_ne_nil {α : Type} {l : List α} (h : l ≠ []) :
    ∃ x, l.getLast? = some x := by
  cases l with
  | nil => exact absurd rfl h
  | cons a t => exact ⟨(a :: t).getLast (by simp), List.getLast?_eq_getLast _ _⟩

theorem sorted_getLast?_max {l : List FileScore} (hs : l.Sorted fsLe) {f : FileScore}
    (hf : l.getLast? = some f) : ∀ x ∈ l, fsLe x f := by
  induction l with
  | nil => simp at hf
  | cons a t ih =>
    cases t with
    | nil =>
      simp only [List.getLast?_singleton, Option.some.injEq] at hf
      intro x hx
      simp only [List.mem_singleton] at hx
      rw [hx, ← hf]
      exact fsLe_refl a
    | cons b t2 =>
      rw [List.getLast?_cons_cons] at hf
      rw [List.sorted_cons] at hs
      intro x hx
      rcases List.mem_cons.mp hx with h | h
      · rw [h]
        exact hs.1 f (List.mem_of_mem_getLast? hf)
      · exact ih hs.2 hf x h

/-- Claim C2: the first apply after a collection round returns none exactly
when fewer than two segments were collected; with at least two it returns
the file id of a collected segment whose score record is maximal under the
tie-break order, together with that segment's effective size. -/
theorem apply_none_iff_and_max (now : ℕ) (l : List (PickedFile × FileSummary)) :
    (applyCollected now l = none ↔ l.length < 2) ∧
    (2 ≤ l.length →
      ∃ v a x, applyCollected now l = some (v, a) ∧ x ∈ l ∧ x.1 = v ∧
        a = x.2.effective_size ∧
        ∀ y ∈ l, fsLe (toScore now y) (toScore now x)) := by
  have hlen : (List.insertionSort fsLe (l.map (toScore now))).length = l.length := by
    rw [List.length_insertionSort, List.length_map]
  have hmain : 2 ≤ l.length →
      ∃ v a x, applyCollected now l = some (v, a) ∧ x ∈ l ∧ x.1 = v ∧
        a = x.2.effective_size ∧
        ∀ y ∈ l, fsLe (toScore now y) (toScore now x) := by
    intro h2
    have hne : List.insertionSort fsLe (l.map (toScore now)) ≠ [] := by
      intro h
      rw [h] at hlen
      simp at hlen
      omega
    obtain ⟨f, hf⟩ := exists_getLast?_of_ne_nil hne
    have happ : applyCollected now l = some (f.file_id, f.active_size) := by
      rw [applyCollected_eq, if_neg (by omega : ¬(List.insertionSort fsLe
        (l.map (toScore now))).length < 2), hf]
      rfl
    have hfm : f ∈ l.map (toScore now) :=
      (List.perm_insertionSort fsLe _).mem_iff.mp (List.mem_of_mem_getLast? hf)
    obtain ⟨x, hx, hxf⟩ := List.mem_map.mp hfm
    refine ⟨f.file_id, f.active_size, x, happ, hx, ?_, ?_, ?_⟩
    · rw [← hxf]
      rfl
    · rw [← hxf]
      rfl
    · intro y hy
      have hy2 : toScore now y ∈ List.insertionSort fsLe (l.map (toScore now)) :=
        (List.perm_insertionSort fsLe _).mem_iff.mpr (List.mem_map_of_mem _ hy)
      have hmax := sorted_getLast?_max (List.sorted_insertionSort fsLe _) hf _ hy2
      rw [hxf]
      exact hmax
  constructor
  · constructor
    · intro hnone
      by_contra hge
      obtain ⟨v, a, x, happ, _⟩ := hmain (by omega)
      rw [happ] at hnone
      exact Option.noConfusion hnone
    · intro h2
      rw [applyCollected_eq, if_pos (by omega)]
  · exact hmain

theorem apply_none_iff_and_max_witness :
    2 ≤ ([(PickedFile.PageFile 1,
          ({ file_size := 4096, num_active_pages := 0, effective_size := 0,
             effective_rate := 0, empty_pages_rate := 1, up2 := 5 } : FileSummary)),
        (PickedFile.PageFile 2,
          { file_size := 4096, num_active_pages := 100, effective_size := 3000,
            effective_rate := 3 / 4, empty_pages_rate := 1 / 2, up2 := 5 })] :
        List (PickedFile × FileSummary)).length ∧
      ∃ v a x, applyCollected 10
          [(PickedFile.PageFile 1,
            { file_size := 4096, num_active_pages := 0, effective_size := 0,
              effective_rate := 0, empty_pages_rate := 1, up2 := 5 }),
           (PickedFile.PageFile 2,
            { file_size := 4096, num_active_pages := 100, effective_size := 3000,
              effective_rate := 3 / 4, empty_pages_rate := 1 / 2, up2 := 5 })] =
            some (v, a) ∧
        x ∈ [(PickedFile.PageFile 1,
            ({ file_size := 4096, num_active_pages := 0, effective_size := 0,
               effective_rate := 0, empty_pages_rate := 1, up2 := 5 } : FileSummary)),
          (PickedFile.PageFile 2,
            { file_size := 4096, num_active_pages := 100, effective_size := 3000,
              effective_rate := 3 / 4, empty_pages_rate := 1 / 2, up2 := 5 })] ∧
        x.1 = v ∧ a = x.2.effective_size ∧
        ∀ y ∈ [(PickedFile.PageFile 1,
            ({ file_size := 4096, num_active_pages := 0, effective_size := 0,
               effective_rate := 0, empty_pages_rate := 1, up2 := 5 } : FileSummary)),
          (PickedFile.PageFile 2,
            { file_size := 4096, num_active_pages := 100, effective_size := 3000,
              effective_rate := 3 / 4, empty_pages_rate := 1 / 2, up2 := 5 })],
          fsLe (toScore 10 y) (toScore 10 x) :=
  ⟨by decide, (apply_none_iff_and_max 10 _).2 (by decide)⟩

/-- Claim C7: the victim is independent of collection order — collecting
any permutation of the same summaries (rational metrics carry no NaN) and
applying yields the same result, because the comparator is a total
antisymmetric lexicographic order ending in the file id. -/
theorem apply_insertion_order_invariant (now : ℕ)
    (l1 l2 : List (PickedFile × FileSummary)) (hp : List.Perm l1 l2) :
    applyCollected now l1 = applyCollected now l2 := by
  have hsort : List.insertionSort fsLe (l1.map (toScore now)) =
      List.insertionSort fsLe (l2.map (toScore now)) :=
    List.eq_of_perm_of_sorted
      ((List.perm_insertionSort fsLe _).trans
        ((hp.map _).trans (List.perm_insertionSort fsLe _).symm))
      (List.sorted_insertionSort fsLe _) (List.sorted_insertionSort fsLe _)
  rw [applyCollected_eq, applyCollected_eq, hsort]

theorem apply_insertion_order_invariant_witness :
    applyCollected 10
        [(PickedFile.PageFile 1,
          { file_size := 4096, num_active_pages := 0, effective_size := 0,
            effective_rate := 0, empty_pages_rate := 1, up2 := 5 }),
         (PickedFile.PageFile 2,
          { file_size := 4096, num_active_pages := 0, effective_size := 0,
            effective_rate := 0, empty_pages_rate := 1, up2 := 5 })] =
      applyCollected 10
        [(PickedFile.PageFile 2,
          { file_size := 4096, num_active_pages := 0, effective_size := 0,
            effective_rate := 0, empty_pages_rate := 1, up2 := 5 }),
         (PickedFile.PageFile 1,
          { file_size := 4096, num_active_pages := 0, effective_size := 0,
            effective_rate := 0, empty_pages_rate := 1, up2 := 5 })] :=
  apply_insertion_order_invariant 10 _ _ (List.Perm.swap _ _ _)

/-! ### Theorems: sorted-page search on well-formed pages -/

theorem wf_lt_of_getElem? {l : List (Key × Index)}
    (hs : l.Pairwise (fun a b => a.1 < b.1)) {i j : ℕ} {e1 e2 : Key × Index}
    (h1 : l[i]? = some e1) (h2 : l[j]? = some e2) (hij : i < j) : e1.1 < e2.1 := by
  rw [List.pairwise_iff_getElem] at hs
  obtain ⟨hi, hi2⟩ := List.getElem?_eq_some.mp h1
  obtain ⟨hj, hj2⟩ := List.getElem?_eq_some.mp h2
  have h := hs i j hi hj hij
  rw [hi2, hj2] at h
  exact h

theorem wf_le_of_getElem? {l : List (Key × Index)}
    (hs : l.Pairwise (fun a b => a.1 < b.1)) {i j : ℕ} {e1 e2 : Key × Index}
    (h1 : l[i]? = some e1) (h2 : l[j]? = some e2) (hij : i ≤ j) : e1.1 ≤ e2.1 := by
  rcases eq_or_lt_of_le hij with h | h
  · subst h
    rw [h1] at h2
    injection h2 with h2
    rw [h2]
  · exact le_of_lt (wf_lt_of_getElem? hs h1 h2 h)

theorem countP_lt_iff {l : List (Key × Index)}
    (hs : l.Pairwise (fun a b => a.1 < b.1)) (k : Key) :
    ∀ (j : ℕ) (e : Key × Index), l[j]? = some e →
      (e.1 < k ↔ j < l.countP (fun e2 => decide (e2.1 < k))) := by
  induction l with
  | nil =>
    intro j e he
    simp at he
  | cons x t ih =>
    rw [List.pairwise_cons] at hs
    obtain ⟨hx, ht⟩ := hs
    intro j e he
    rw [List.countP_cons]
    simp only [decide_eq_true_eq]
    by_cases hxk : x.1 < k
    · rw [if_pos hxk]
      cases j with
      | zero =>
        rw [List.getElem?_cons_zero] at he
        injection he with he
        subst he
        exact ⟨fun _ => by omega, fun _ => hxk⟩
      | succ n =>
        rw [List.getElem?_cons_succ] at he
        rw [ih ht n e he]
        omega
    · have ht0 : t.countP (fun e2 => decide (e2.1 < k)) = 0 := by
        rw [List.countP_eq_zero]
        intro y hy
        simp only [decide_eq_true_eq]
        intro hyk
        exact absurd (hx y hy) (lt_asymm (lt_of_lt_of_le hyk (le_of_not_lt hxk)))
      rw [if_neg hxk, ht0]
      cases j with
      | zero =>
        rw [List.getElem?_cons_zero] at he
        injection he with he
        subst he
        exact ⟨fun h => absurd h hxk, fun h => absurd h (by omega)⟩
      | succ n =>
        rw [List.getElem?_cons_succ] at he
        have hme : e ∈ t := List.getElem?_mem he
        have hek : ¬e.1 < k := fun hek2 =>
          absurd (hx e hme) (lt_asymm (lt_of_lt_of_le hek2 (le_of_not_lt hxk)))
        exact ⟨fun h => absurd h hek, fun h => absurd h (by omega)⟩

theorem countP_self_eq {l : List (Key × Index)}
    (hs : l.Pairwise (fun a b => a.1 < b.1)) {i : ℕ} {e : Key × Index}
    (he : l[i]? = some e) :
    l.countP (fun e2 => decide (e2.1 < e.1)) = i := by
  have hnot : ¬i < l.countP (fun e2 => decide (e2.1 < e.1)) := by
    intro h
    exact lt_irrefl _ ((countP_lt_iff hs e.1 i e he).mpr h)
  by_contra hne
  have hlt : l.countP (fun e2 => decide (e2.1 < e.1)) < i := by omega
  have hi : i < l.length := (List.getElem?_eq_some.mp he).1
  have hc : l.countP (fun e2 => decide (e2.1 < e.1)) < l.length := lt_trans hlt hi
  have hce := List.getElem?_eq_getElem hc
  have hkey := wf_lt_of_getElem? hs hce he hlt
  have h2 := (countP_lt_iff hs e.1 _ _ hce).mp hkey
  omega

theorem search_hit {p : SortedPage} (hs : p.WellFormed) {i : ℕ} {e : Key × Index}
    (he : p.entries[i]? = some e) : p.search e.1 = Sum.inl i := by
  unfold SortedPage.search
  rw [show p.entries.countP (fun e2 => decide (e2.1 < e.1)) = i from
    countP_self_eq hs he]
  simp [he]

theorem search_inl_inv {p : SortedPage} {k : Key} {i : ℕ}
    (h : p.search k = Sum.inl i) :
    i = p.entries.countP (fun e2 => decide (e2.1 < k)) ∧
      ∃ e, p.entries[i]? = some e ∧ e.1 = k := by
  unfold SortedPage.search at h
  simp only [] at h
  split at h
  next e hg =>
    split at h
    next hek =>
      injection h with h2
      subst h2
      exact ⟨rfl, e, hg, hek⟩
    next hek => exact absurd h (by simp)
  next hg => exact absurd h (by simp)

theorem search_inr_inv {p : SortedPage} {k : Key} {i : ℕ}
    (h : p.search k = Sum.inr i) :
    i = p.entries.countP (fun e2 => decide (e2.1 < k)) ∧
      ∀ e, p.entries[i]? = some e → e.1 ≠ k := by
  unfold SortedPage.search at h
  simp only [] at h
  split at h
  next e hg =>
    split at h
    next hek => exact absurd h (by simp)
    next hek =>
      injection h with h2
      subst h2
      refine ⟨rfl, fun e2 he2 => ?_⟩
      rw [hg] at he2
      injection he2 with he2
      subst he2
      exact hek
  next hg =>
    injection h with h2
    subst h2
    refine ⟨rfl, fun e he => ?_⟩
    rw [hg] at he
    exact absurd he (by simp)

theorem search_miss_of {p : SortedPage} {k : Key} {i : ℕ}
    (hc : p.entries.countP (fun e2 => decide (e2.1 < k)) = i)
    (hnk : ∀ e, p.entries[i]? = some e → e.1 ≠ k) :
    p.search k = Sum.inr i := by
  unfold SortedPage.search
  rw [hc]
  cases hg : p.entries[i]? with
  | none => simp [hg]
  | some e => simp [hg, hnk e hg]

/-! ### Theorems: index-page point lookup -/

/-- Claim C5: on a page built from ascending entries, find returns the
entry with the greatest key not exceeding the target, and none when every
key exceeds it; in particular an exact key hits its own entry, a target
strictly between two adjacent keys returns the lower entry, and a target
below the first key returns none. -/
theorem find_spec (p : IndexPageRef) (hs : p.base.WellFormed) :
    (∀ (i : ℕ) (e : Key × Index), p.base.entries[i]? = some e → p.find e.1 = some e) ∧
    (∀ (i : ℕ) (e e2 : Key × Index) (k : Key), p.base.entries[i]? = some e →
      p.base.entries[i + 1]? = some e2 →
      e.1 < k → k < e2.1 → p.find k = some e) ∧
    (∀ (e0 : Key × Index) (k : Key), p.base.entries[0]? = some e0 → k < e0.1 →
      p.find k = none) ∧
    (∀ k e, p.find k = some e → e ∈ p.base.entries ∧ e.1 ≤ k ∧
      ∀ e2 ∈ p.base.entries, e2.1 ≤ k → e2.1 ≤ e.1) ∧
    (∀ k, p.find k = none → ∀ e2 ∈ p.base.entries, k < e2.1) := by
  refine ⟨?_, ?_, ?_, ?_, ?_⟩
  · -- exact hit
    intro i e he
    unfold IndexPageRef.find SortedPage.seek_back
    rw [search_hit hs he]
    exact he
  · -- strictly between two adjacent keys
    intro i e e2 k he he2 hek hke2
    have hc : p.base.entries.countP (fun e3 => decide (e3.1 < k)) = i + 1 := by
      have h1 : i < p.base.entries.countP (fun e3 => decide (e3.1 < k)) :=
        (countP_lt_iff hs k i e he).mp hek
      have h2 : ¬(i + 1 < p.base.entries.countP (fun e3 => decide (e3.1 < k))) :=
        fun h => absurd ((countP_lt_iff hs k (i + 1) e2 he2).mpr h) (lt_asymm hke2)
      omega
    have hsr : p.base.search k = Sum.inr (i + 1) :=
      search_miss_of hc (fun e3 he3 => by
        rw [he2] at he3
        injection he3 with he3
        subst he3
        exact ne_of_gt hke2)
    unfold IndexPageRef.find SortedPage.seek_back
    rw [hsr]
    show (if i + 1 = 0 then none else p.base.get (i + 1 - 1)) = some e
    rw [if_neg (by omega : ¬i + 1 = 0)]
    unfold SortedPage.get
    rw [Nat.add_sub_cancel]
    exact he
  · -- below the first key
    intro e0 k he0 hk
    have hc : p.base.entries.countP (fun e3 => decide (e3.1 < k)) = 0 := by
      rw [List.countP_eq_zero]
      intro y hy
      simp only [decide_eq_true_eq]
      obtain ⟨j, hj⟩ := List.mem_iff_getElem?.mp hy
      have hle : e0.1 ≤ y.1 := wf_le_of_getElem? hs he0 hj (by omega)
      exact fun hyk => absurd (lt_of_lt_of_le hk hle) (lt_asymm hyk)
    have hsr : p.base.search k = Sum.inr 0 :=
      search_miss_of hc (fun e3 he3 => by
        rw [he0] at he3
        injection he3 with he3
        subst he3
        exact ne_of_gt (lt_of_lt_of_le hk (le_refl _)))
    unfold IndexPageRef.find SortedPage.seek_back
    rw [hsr]
    show (if 0 = 0 then none else p.base.get (0 - 1)) = none
    exact if_pos rfl
  · -- greatest entry at most the target
    intro k e hfind
    unfold IndexPageRef.find SortedPage.seek_back at hfind
    split at hfind
    next i hsr =>
      obtain ⟨hci, e3, he3, he3k⟩ := search_inl_inv hsr
      unfold SortedPage.get at hfind
      rw [he3] at hfind
      injection hfind with hfind
      subst hfind
      refine ⟨List.getElem?_mem he3, le_of_eq he3k, ?_⟩
      intro e2 _ he2k
      rw [he3k]
      exact he2k
    next i hsr =>
      obtain ⟨hci, hnk⟩ := search_inr_inv hsr
      split at hfind
      next h0 => exact absurd hfind (by simp)
      next h0 =>
        unfold SortedPage.get at hfind
        have heq : e.1 < k := by
          have := (countP_lt_iff hs k (i - 1) e hfind).mpr
          exact this (by omega)
        refine ⟨List.getElem?_mem hfind, le_of_lt heq, ?_⟩
        intro e2 he2m he2k
        obtain ⟨j, hj⟩ := List.mem_iff_getElem?.mp he2m
        by_cases hji : j < i
        · exact wf_le_of_getElem? hs hj hfind (by omega)
        · -- j ≥ i would force a key equal to k at or above index i: impossible
          exfalso
          have hge : ¬e2.1 < k :=
            fun h => absurd ((countP_lt_iff hs k j e2 hj).mp h) (by omega)
          have he2keq : e2.1 = k := le_antisymm he2k (le_of_not_lt hge)
          by_cases hjeq : j = i
          · subst hjeq
            exact hnk e2 hj he2keq
          · have hij : i < j := by omega
            have hilen : i < p.base.entries.length := by
              have := (List.getElem?_eq_some.mp hj).1
              omega
            have hi4 := List.getElem?_eq_getElem hilen
            have hne4 := hnk _ hi4
            have hlt4 : ¬p.base.entries[i].1 < k :=
              fun h => absurd ((countP_lt_iff hs k i _ hi4).mp h) (by omega)
            have := wf_lt_of_getElem? hs hi4 hj hij
            rw [he2keq] at this
            exact hlt4 this
  · -- none means every key exceeds the target
    intro k hfind e2 he2m
    unfold IndexPageRef.find SortedPage.seek_back at hfind
    split at hfind
    next i hsr =>
      obtain ⟨hci, e3, he3, he3k⟩ := search_inl_inv hsr
      unfold SortedPage.get at hfind
      rw [he3] at hfind
      exact absurd hfind (by simp)
    next i hsr =>
      obtain ⟨hci, hnk⟩ := search_inr_inv hsr
      split at hfind
      next h0 =>
        subst h0
        obtain ⟨j, hj⟩ := List.mem_iff_getElem?.mp he2m
        have hge : ¬e2.1 < k :=
          fun h => absurd ((countP_lt_iff hs k j e2 hj).mp h) (by omega)
        refine lt_of_le_of_ne (le_of_not_lt hge) ?_
        intro hkeq
        -- a key equal to k would have to sit at index 0, which search excluded
        by_cases hj0 : j = 0
        · subst hj0
          exact hnk e2 hj hkeq.symm
        · have h0len : 0 < p.base.entries.length := by
            have := (List.getElem?_eq_some.mp hj).1
            omega
          have h04 := List.getElem?_eq_getElem h0len
          have hlt4 : ¬p.base.entries[0].1 < k :=
            fun h => absurd ((countP_lt_iff hs k 0 _ h04).mp h) (by omega)
          have := wf_lt_of_getElem? hs h04 hj (by omega)
          rw [← hkeq] at this
          exact hlt4 this
      next h0 =>
        exfalso
        unfold SortedPage.get at hfind
        have hlen : p.base.entries.length ≤ i - 1 := by
          by_contra hlen
          rw [List.getElem?_eq_getElem (by omega)] at hfind
          exact absurd hfind (by simp)
        have hcle := List.countP_le_length (fun e3 => decide (e3.1 < k)) (l := p.base.entries)
        omega

theorem find_spec_witness :
    (IndexPageRef.mk ⟨[([97], ⟨1, 0⟩), ([109], ⟨2, 0⟩), ([122], ⟨3, 0⟩)]⟩).find [107] =
      some ([97], ⟨1, 0⟩) :=
  (find_spec (IndexPageRef.mk ⟨[([97], ⟨1, 0⟩), ([109], ⟨2, 0⟩), ([122], ⟨3, 0⟩)]⟩)
      (by decide)).2.1 0 ([97], ⟨1, 0⟩) ([109], ⟨2, 0⟩) [107]
    (by decide) (by decide) (by decide) (by decide)

/-! ### Theorems: index-page range lookup -/

/-- Claim C6 counterexample: on the empty index page (well formed), any
lookup returns the pair (none, none), which satisfies neither disjunct of
the claimed duality — left has no key, and right is not a strictly greater
entry either. -/
theorem find_range_duality_fails_on_empty :
    SortedPage.WellFormed ⟨[]⟩ ∧
      (IndexPageRef.mk ⟨[]⟩).find_range [] = (none, none) ∧
      ¬RangeDuality [] ((IndexPageRef.mk ⟨[]⟩).find_range []) := by
  have h : (IndexPageRef.mk ⟨[]⟩).find_range [] = (none, none) := rfl
  refine ⟨by decide, h, ?_⟩
  rw [h]
  intro hd
  rcases hd with ⟨l, hl, -⟩ | ⟨-, r, hr, -⟩
  · exact Option.noConfusion hl
  · exact Option.noConfusion hr

/-- Claim C6 (amended): find_range returns the covering entry and its
successor — on an exact hit at index i the pair is the entry at i and the
lookup at i+1; on a miss with insertion index i it is the lookup at i-1
(none when i = 0) and the lookup at i; and the duality — left covers the
target and right, when present, strictly exceeds it, or left is none and
right strictly exceeds it — holds for every nonempty page, while the empty
page returns (none, none). -/
theorem find_range_spec (p : IndexPageRef) (hs : p.base.WellFormed) :
    (∀ (i : ℕ) (e : Key × Index) (k : Key), p.base.entries[i]? = some e → e.1 = k →
      p.find_range k = (some e, p.base.entries[i + 1]?)) ∧
    (∀ k : Key, (∀ e ∈ p.base.entries, e.1 ≠ k) →
      p.find_range k =
        (if p.base.entries.countP (fun e2 => decide (e2.1 < k)) = 0 then none
         else p.base.entries[p.base.entries.countP (fun e2 => decide (e2.1 < k)) - 1]?,
         p.base.entries[p.base.entries.countP (fun e2 => decide (e2.1 < k))]?)) ∧
    (∀ k : Key, p.base.entries ≠ [] → RangeDuality k (p.find_range k)) ∧
    (∀ k : Key, p.base.entries = [] → p.find_range k = (none, none)) := by
  refine ⟨?_, ?_, ?_, ?_⟩
  · -- exact hit
    intro i e k he hk
    subst hk
    unfold IndexPageRef.find_range
    rw [search_hit hs he]
    show (p.base.get i, p.base.get (i + 1)) = _
    unfold SortedPage.get
    rw [he]
  · -- miss with insertion index
    intro k hm
    have hsr : p.base.search k =
        Sum.inr (p.base.entries.countP (fun e2 => decide (e2.1 < k))) :=
      search_miss_of rfl (fun e he => hm e (List.getElem?_mem he))
    unfold IndexPageRef.find_range
    rw [hsr]
    rfl
  · -- duality on nonempty pages
    intro k hne
    unfold IndexPageRef.find_range
    cases hsr : p.base.search k with
    | inl i =>
      obtain ⟨hci, e3, he3, he3k⟩ := search_inl_inv hsr
      show RangeDuality k (p.base.get i, p.base.get (i + 1))
      unfold SortedPage.get
      rw [he3]
      cases hg2 : p.base.entries[i + 1]? with
      | none => exact Or.inl ⟨e3, rfl, le_of_eq he3k, Or.inl rfl⟩
      | some r =>
        have hlt := wf_lt_of_getElem? hs he3 hg2 (by omega)
        rw [he3k] at hlt
        exact Or.inl ⟨e3, rfl, le_of_eq he3k, Or.inr ⟨r, rfl, hlt⟩⟩
    | inr i =>
      obtain ⟨hci, hnk⟩ := search_inr_inv hsr
      show RangeDuality k
        (if i = 0 then none else p.base.get (i - 1), p.base.get i)
      by_cases h0 : i = 0
      · subst h0
        rw [if_pos rfl]
        have hlen : 0 < p.base.entries.length := by
          cases hE : p.base.entries with
          | nil => exact absurd hE hne
          | cons a t => simp
        have hg0 := List.getElem?_eq_getElem hlen
        have hge : ¬p.base.entries[0].1 < k :=
          fun h => absurd ((countP_lt_iff hs k 0 _ hg0).mp h) (by omega)
        have hstrict : k < p.base.entries[0].1 :=
          lt_of_le_of_ne (le_of_not_lt hge) (fun h => hnk _ hg0 h.symm)
        exact Or.inr ⟨rfl, p.base.entries[0], by unfold SortedPage.get; rw [hg0], hstrict⟩
      · rw [if_neg h0]
        have hcle := List.countP_le_length (fun e2 => decide (e2.1 < k)) (l := p.base.entries)
        have hi1 : i - 1 < p.base.entries.length := by omega
        have hg1 := List.getElem?_eq_getElem hi1
        have hlt1 : p.base.entries[i - 1].1 < k :=
          (countP_lt_iff hs k (i - 1) _ hg1).mpr (by omega)
        refine Or.inl ⟨p.base.entries[i - 1], by unfold SortedPage.get; rw [hg1], le_of_lt hlt1, ?_⟩
        cases hg2 : p.base.entries[i]? with
        | none => exact Or.inl (by unfold SortedPage.get; rw [hg2])
        | some r =>
          have hger : ¬r.1 < k :=
            fun h => absurd ((countP_lt_iff hs k i r hg2).mp h) (by omega)
          have hstrict : k < r.1 :=
            lt_of_le_of_ne (le_of_not_lt hger) (fun h => hnk r hg2 h.symm)
          exact Or.inr ⟨r, by unfold SortedPage.get; rw [hg2], hstrict⟩
  · -- the empty page
    intro k hE
    have hsr : p.base.search k = Sum.inr 0 := by
      unfold SortedPage.search
      rw [hE]
      rfl
    unfold IndexPageRef.find_range
    rw [hsr]
    show (if 0 = 0 then none else p.base.get (0 - 1), p.base.get 0) = (none, none)
    rw [if_pos rfl]
    unfold SortedPage.get
    rw [hE]
    rfl

theorem find_range_spec_witness :
    RangeDuality [107]
      ((IndexPageRef.mk ⟨[([97], ⟨1, 0⟩), ([109], ⟨2, 0⟩), ([122], ⟨3, 0⟩)]⟩).find_range
        [107]) :=
  (find_range_spec (IndexPageRef.mk ⟨[([97], ⟨1, 0⟩), ([109], ⟨2, 0⟩), ([122], ⟨3, 0⟩)]⟩)
      (by decide)).2.2.1 [107] (by decide)

/-! ### Theorems: index-page split -/

/-- Claim C4: split picks the entry at position n/2 as the separator,
recovers its rank r by search (r = n/2 on a well-formed page), and returns
none exactly when that rank is zero; on success the separator is the
original key at rank r with r at least one, the returned iterator yields
exactly the entries from r to the end, and rewinding it from any cursor
position restores that same sequence. -/
theorem split_spec (p : IndexPageRef) (hs : p.base.WellFormed) :
    (p.split = none ↔ p.base.len / 2 = 0) ∧
    (∀ (sep : Key) (it : IndexPageSplitIter), p.split = some (sep, it) →
      ∃ r : ℕ, 1 ≤ r ∧ r = p.base.len / 2 ∧
        (∃ v : Index, p.base.entries[r]? = some (sep, v)) ∧
        it.skip = r ∧ it.base.page = p ∧ it.base.pos = r ∧
        it.remaining = p.base.entries.drop r ∧
        ∀ q : ℕ, (IndexPageSplitIter.mk (IndexPageIter.mk p q) r).rewind.remaining =
          p.base.entries.drop r) := by
  by_cases hnil : p.base.entries = []
  · have hnone : p.split = none := by
      unfold IndexPageRef.split SortedPage.get SortedPage.len
      rw [hnil]
      rfl
    constructor
    · rw [hnone]
      unfold SortedPage.len
      rw [hnil]
      simp
    · intro sep it h
      rw [hnone] at h
      exact Option.noConfusion h
  · have hlen0 : 0 < p.base.entries.length := List.length_pos.mpr hnil
    have hhalf : p.base.len / 2 < p.base.entries.length := by
      unfold SortedPage.len
      omega
    have hget : p.base.entries[p.base.len / 2]? = some p.base.entries[p.base.len / 2] :=
      List.getElem?_eq_getElem hhalf
    have hsr : p.base.search (p.base.entries[p.base.len / 2]).1 =
        Sum.inl (p.base.len / 2) :=
      search_hit hs hget
    have hsplit : p.split =
        (if p.base.len / 2 > 0 then
          some ((p.base.entries[p.base.len / 2]).1,
            IndexPageSplitIter.new (IndexPageIter.new p) (p.base.len / 2))
         else none) := by
      simp only [IndexPageRef.split, SortedPage.get, hget, hsr]
    constructor
    · rw [hsplit]
      by_cases h0 : p.base.len / 2 > 0
      · rw [if_pos h0]
        exact ⟨fun h => Option.noConfusion h, fun h => absurd h (by omega)⟩
      · rw [if_neg h0]
        exact ⟨fun _ => by omega, fun _ => rfl⟩
    · intro sep it heq
      rw [hsplit] at heq
      by_cases h0 : p.base.len / 2 > 0
      · rw [if_pos h0] at heq
        injection heq with heq2
        rw [Prod.mk.injEq] at heq2
        obtain ⟨hsep, hit⟩ := heq2
        refine ⟨p.base.len / 2, by omega, rfl, ?_, ?_, ?_, ?_, ?_, ?_⟩
        · refine ⟨(p.base.entries[p.base.len / 2]).2, ?_⟩
          rw [hget, ← hsep]
        · rw [← hit]
          rfl
        · rw [← hit]
          rfl
        · rw [← hit]
          show 0 + p.base.len / 2 = p.base.len / 2
          omega
        · rw [← hit]
          show p.base.entries.drop (0 + p.base.len / 2) = p.base.entries.drop (p.base.len / 2)
          rw [Nat.zero_add]
        · intro q
          show p.base.entries.drop (0 + p.base.len / 2) = p.base.entries.drop (p.base.len / 2)
          rw [Nat.zero_add]
      · rw [if_neg h0] at heq
        exact Option.noConfusion heq

theorem split_spec_witness :
    ∃ r : ℕ, 1 ≤ r ∧
      r = (IndexPageRef.mk
        ⟨[([97], ⟨1, 0⟩), ([98], ⟨2, 0⟩), ([99], ⟨3, 0⟩), ([100], ⟨4, 0⟩)]⟩).base.len / 2 ∧
      (∃ v : Index, (IndexPageRef.mk
        ⟨[([97], ⟨1, 0⟩), ([98], ⟨2, 0⟩), ([99], ⟨3, 0⟩),
          ([100], ⟨4, 0⟩)]⟩).base.entries[r]? = some ([99], v)) ∧
      (IndexPageSplitIter.mk (IndexPageIter.mk (IndexPageRef.mk
        ⟨[([97], ⟨1, 0⟩), ([98], ⟨2, 0⟩), ([99], ⟨3, 0⟩), ([100], ⟨4, 0⟩)]⟩) 2) 2).skip = r ∧
      (IndexPageSplitIter.mk (IndexPageIter.mk (IndexPageRef.mk
        ⟨[([97], ⟨1, 0⟩), ([98], ⟨2, 0⟩), ([99], ⟨3, 0⟩), ([100], ⟨4, 0⟩)]⟩) 2) 2).base.page =
        IndexPageRef.mk
          ⟨[([97], ⟨1, 0⟩), ([98], ⟨2, 0⟩), ([99], ⟨3, 0⟩), ([100], ⟨4, 0⟩)]⟩ ∧
      (IndexPageSplitIter.mk (IndexPageIter.mk (IndexPageRef.mk
        ⟨[([97], ⟨1, 0⟩), ([98], ⟨2, 0⟩), ([99], ⟨3, 0⟩), ([100], ⟨4, 0⟩)]⟩) 2) 2).base.pos =
        r ∧
      (IndexPageSplitIter.mk (IndexPageIter.mk (IndexPageRef.mk
        ⟨[([97], ⟨1, 0⟩), ([98], ⟨2, 0⟩), ([99], ⟨3, 0⟩),
          ([100], ⟨4, 0⟩)]⟩) 2) 2).remaining =
        (IndexPageRef.mk
          ⟨[([97], ⟨1, 0⟩), ([98], ⟨2, 0⟩), ([99], ⟨3, 0⟩),
            ([100], ⟨4, 0⟩)]⟩).base.entries.drop r ∧
      ∀ q : ℕ, (IndexPageSplitIter.mk (IndexPageIter.mk (IndexPageRef.mk
        ⟨[([97], ⟨1, 0⟩), ([98], ⟨2, 0⟩), ([99], ⟨3, 0⟩), ([100], ⟨4, 0⟩)]⟩) q) r).rewind.remaining =
        (IndexPageRef.mk
          ⟨[([97], ⟨1, 0⟩), ([98], ⟨2, 0⟩), ([99], ⟨3, 0⟩),
            ([100], ⟨4, 0⟩)]⟩).base.entries.drop r :=
  (split_spec (IndexPageRef.mk
      ⟨[([97], ⟨1, 0⟩), ([98], ⟨2, 0⟩), ([99], ⟨3, 0⟩), ([100], ⟨4, 0⟩)]⟩)
    (by decide)).2 [99]
    (IndexPageSplitIter.mk (IndexPageIter.mk (IndexPageRef.mk
      ⟨[([97], ⟨1, 0⟩), ([98], ⟨2, 0⟩), ([99], ⟨3, 0⟩), ([100], ⟨4, 0⟩)]⟩) 2) 2)
    (by decide)

end PhotonDB
